import Mathlib

/-!
Verification development for the lessgoext repository: shallow embeddings of
the CSRF middleware token functions, the BasicAuth middleware dispatch, and
the directsql statement engine (statement store, router, execution kinds and
nested-tree assembler) described by its README and design notes, together
with theorems settling the stated behavioral claims.
-/

namespace Lessgoext

/-! ## CSRF token functions (middleware/csrf.go)

Byte strings are lists of naturals below 256; Go strings are lists of
characters.  The HMAC-SHA1 primitive comes from the Go standard library, so
it is an abstract parameter of the embedded functions. -/

/-- Hex digit character of a nibble, as produced by Go hex.EncodeToString. -/
def hexDigit (n : Nat) : Char :=
  match n with
  | 0 => '0' | 1 => '1' | 2 => '2' | 3 => '3' | 4 => '4'
  | 5 => '5' | 6 => '6' | 7 => '7' | 8 => '8' | 9 => '9'
  | 10 => 'a' | 11 => 'b' | 12 => 'c' | 13 => 'd' | 14 => 'e'
  | _ => 'f'

/-- Numeric value of a hex digit, as accepted by Go hex.DecodeString (the
three range cases of its fromHexChar helper). -/
def hexDigitVal (c : Char) : Option Nat :=
  if '0' ≤ c ∧ c ≤ '9' then some (c.toNat - '0'.toNat)
  else if 'a' ≤ c ∧ c ≤ 'f' then some (c.toNat - 'a'.toNat + 10)
  else if 'A' ≤ c ∧ c ≤ 'F' then some (c.toNat - 'A'.toNat + 10)
  else none

/-- Go hex.EncodeToString on a byte string. -/
def hexEncode : List Nat → List Char
  | [] => []
  | b :: bs => hexDigit (b / 16) :: hexDigit (b % 16) :: hexEncode bs

/-- Go hex.DecodeString: pairs of hex digits; odd length or a non-digit fails. -/
def hexDecode : List Char → Option (List Nat)
  | [] => some []
  | [_] => none
  | c1 :: c2 :: cs =>
    match hexDigitVal c1, hexDigitVal c2, hexDecode cs with
    | some h, some l, some rest => some ((16 * h + l) :: rest)
    | _, _, _ => none

/-- Go strings.Index for a single character: index of its first occurrence. -/
def charIndex (c : Char) : List Char → Option Nat
  | [] => none
  | a :: as => if a = c then some 0 else (charIndex c as).map (· + 1)

/-- generateCSRFToken from csrf.go: hex(HMAC-SHA1(secret, salt)) ++ ":" ++
hex(salt), with the HMAC primitive abstracted as mac. -/
def generateCSRFToken (mac : List Nat → List Nat → List Nat)
    (secret salt : List Nat) : List Char :=
  hexEncode (mac secret salt) ++ ':' :: hexEncode salt

/-- validateCSRFToken from csrf.go: split at the first colon, hex-decode the
suffix as the salt (a decode failure propagates as the error), and compare
the token against a regenerated one. -/
def validateCSRFToken (mac : List Nat → List Nat → List Nat)
    (token : List Char) (secret : List Nat) : Except Unit Bool :=
  match charIndex ':' token with
  | none => .ok false
  | some sep =>
    match hexDecode (token.drop (sep + 1)) with
    | none => .error ()
    | some salt => .ok (decide (token = generateCSRFToken mac secret salt))

/-! ## BasicAuth middleware (middleware auth file)

The Authorization header value is a list of characters; decoded credentials
are byte strings.  Go base64.StdEncoding.DecodeString comes from the
standard library, so it is an abstract parameter. -/

/-- Outcome of one BasicAuth middleware invocation: call the next handler,
return lessgo.ErrUnauthorized (401), return a 400 Bad Request error, or
propagate the base64 decode error. -/
inductive AuthOutcome
  | next
  | unauthorized
  | badRequest
  | decodeError
deriving DecidableEq

/-- The characters of the constant basic = "Basic". -/
def basicStr : List Char := ['B', 'a', 's', 'i', 'c']

/-- First index of a byte in a byte string (the credential colon scan). -/
def natIndex (n : Nat) : List Nat → Option Nat
  | [] => none
  | a :: as => if a = n then some 0 else (natIndex n as).map (· + 1)

/-- BasicAuth handler body from the middleware source: when the header is
longer than 6 characters and starts with "Basic", base64-decode the rest
(after one separator character); on decode success scan the credential for
its first colon and dispatch on AuthFunc; every other shape yields a 400
error. -/
def BasicAuth (dec : List Char → Option (List Nat))
    (f : List Nat → List Nat → Bool) (auth : List Char) : AuthOutcome :=
  if 6 < auth.length ∧ auth.take 5 = basicStr then
    match dec (auth.drop 6) with
    | none => .decodeError
    | some cred =>
      match natIndex 58 cred with
      | none => .badRequest
      | some i =>
        if f (cred.take i) (cred.drop (i + 1)) then .next else .unauthorized
  else .badRequest

/-! ## directsql nested-tree assembler

Modelled from the spec: the NESTED_SELECT result assembler is absent from
the repository (the README lists it as unimplemented); the spec prescribes
the algorithm: group flat rows by parent id, rows with a null parent are
roots, other rows are appended to their parent's children in input order,
and cycles (a node that is its own ancestor) are rejected as CycleError. -/

/-- Modelled from the spec: one flat result row with its id and parent-id
columns; a missing parent (null/empty) is none. -/
structure Row where
  id : Nat
  parent : Option Nat
deriving DecidableEq

/-- Modelled from the spec: one node of the assembled nested tree. -/
inductive Node where
  | mk (id : Nat) (children : List Node)

/-- Identifier of a nested-tree node. -/
def Node.id : Node → Nat
  | .mk i _ => i

/-- Children list of a nested-tree node. -/
def Node.children : Node → List Node
  | .mk _ cs => cs

/-- Rows whose parent column names the given id, in input order. -/
def childrenRows (rows : List Row) (i : Nat) : List Row :=
  rows.filter (fun r => decide (r.parent = some i))

/-- First row carrying the given id (the id-to-node mapping lookup). -/
def findRow (rows : List Row) (i : Nat) : Option Row :=
  rows.find? (fun r => decide (r.id = i))

/-- Whether following the parent chain from cur hits target within the
given number of steps. -/
def chainReaches (rows : List Row) (target : Nat) : Nat → Nat → Bool
  | 0, _ => false
  | fuel + 1, cur =>
    match findRow rows cur with
    | none => false
    | some r =>
      match r.parent with
      | none => false
      | some p => decide (p = target) || chainReaches rows target fuel p

/-- Modelled from the spec: a row is rejected when it is its own ancestor,
that is, its parent chain returns to its own id. -/
def isOwnAncestor (rows : List Row) (r : Row) : Bool :=
  chainReaches rows r.id rows.length r.id

/-- Build a tree for each listed row with the given per-row builder,
keeping input order; the first failure propagates. -/
def buildKids (step : Row → Except Unit Node) : List Row → Except Unit (List Node)
  | [] => .ok []
  | r :: rs =>
    match step r, buildKids step rs with
    | .ok t, .ok ts => .ok (t :: ts)
    | .error e, _ => .error e
    | _, .error e => .error e

/-- Modelled from the spec: assemble the tree rooted at one row, attaching
the recursively assembled trees of its child rows in input order; the fuel
bounds the recursion depth and is exhausted only on inputs rejected
beforehand as cyclic. -/
def buildNode (rows : List Row) : Nat → Row → Except Unit Node
  | 0, _ => .error ()
  | fuel + 1, r =>
    (buildKids (fun c => buildNode rows fuel c) (childrenRows rows r.id)).map
      (.mk r.id)

/-- Modelled from the spec: the nested-tree assembler: reject inputs with a
cyclic parent chain as CycleError, then build one tree per null-parent row,
in input order. -/
def assemble (rows : List Row) : Except Unit (List Node) :=
  if rows.any (isOwnAncestor rows) then .error ()
  else buildKids (fun r => buildNode rows rows.length r)
    (rows.filter (fun r => decide (r.parent = none)))

/-- A node is well shaped when its children are exactly the child rows of
its id, in input order, and all its descendants are well shaped too. -/
def Node.goodShape (rows : List Row) : Node → Bool
  | .mk i cs =>
    decide (cs.map Node.id = (childrenRows rows i).map Row.id) &&
    cs.attach.all (fun c => Node.goodShape rows c.1)
decreasing_by
  simp_wf
  have h := List.sizeOf_lt_of_mem c.2
  omega

/-- Flat rows of the spec's worked nested-select example. -/
def exampleRows : List Row := [⟨1, none⟩, ⟨2, some 1⟩, ⟨3, some 1⟩]

/-! ## directsql statement store, router and execution kinds

Modelled from the spec: the directsql implementation (statement store,
file watcher, router and execution engine) is absent from the repository;
only its README is present.  Logical paths and URLs are segment lists;
parsing outcomes are abstract Except values. -/

/-- The eleven statement kinds of the directsql README. -/
inductive Tsqltype where
  | ST_SELECT
  | ST_PAGINGSELECT
  | ST_NESTEDSELECT
  | ST_MULTISELECT
  | ST_DELETE
  | ST_INSERT
  | ST_UPDATE
  | ST_BATCHINSERT
  | ST_BATCHUPDATE
  | ST_BATCHCOMPLEX
  | ST_INSERTPRO
deriving DecidableEq

/-- Modelled from the spec: a named SQL statement definition held by the
Statement Store, keyed by its logical path. -/
structure StatementDefinition where
  kind : Tsqltype
  sql : String
deriving DecidableEq

/-- The Statement Store's path-to-definition mapping: an association list
from logical paths (segment lists) to definitions. -/
def Store : Type := List (List String × StatementDefinition)

/-- Modelled from the spec: get(logicalPath), the Store lookup. -/
def storeGet (s : Store) (p : List String) : Option StatementDefinition :=
  (s.find? (fun e => decide (e.1 = p))).map (fun e => e.2)

/-- Modelled from the spec: remove(logicalPath), dropping the entry. -/
def storeRemove (s : Store) (p : List String) : Store :=
  s.filter (fun e => ! decide (e.1 = p))

/-- Modelled from the spec: put(logicalPath), replacing any previous entry
wholesale. -/
def storePut (s : Store) (p : List String) (d : StatementDefinition) : Store :=
  (p, d) :: storeRemove s p

/-- Modelled from the spec: the File Watcher's file-modified handling: a
successful re-parse atomically swaps the entry; a parse error is logged and
the last-good definition is kept. -/
def onFileModified (s : Store) (p : List String)
    (parsed : Except Unit StatementDefinition) : Store :=
  match parsed with
  | .ok d => storePut s p d
  | .error _ => s

/-- Modelled from the spec: load(root, relativePath): parse the file and
install the definition under its alias-qualified logical path; a parse
error installs nothing. -/
def load (s : Store) (al : String) (rel : List String)
    (parsed : Except Unit StatementDefinition) : Store :=
  match parsed with
  | .ok d => storePut s (al :: rel) d
  | .error _ => s

/-- Drop a fixed leading segment sequence from a URL, or fail. -/
def stripBase : List String → List String → Option (List String)
  | [], url => some url
  | _ :: _, [] => none
  | p :: ps, u :: us => if p = u then stripBase ps us else none

/-- Lookup of a root alias in the configured alias-to-directory table. -/
def aliasLookup (roots : List (String × String)) (al : String) : Option String :=
  (roots.find? (fun e => decide (e.1 = al))).map (fun e => e.2)

/-- Modelled from the spec: resolve(urlPath): strip the fixed leading
segments, require the first remaining segment to be a configured root
alias, and take the rest as the extension-less relative statement path;
an unknown alias is NotFound. -/
def resolve (roots : List (String × String)) (base url : List String) :
    Option (List String) :=
  match stripBase base url with
  | none => none
  | some [] => none
  | some (al :: rest) =>
    match aliasLookup roots al with
    | none => none
    | some _ => some (al :: rest)

/-- Modelled from the spec: the file backing a logical path: the alias is
mapped through the root table to its real directory, the rest names the
file (the configured extension is appended on disk). -/
def backingFile (roots : List (String × String)) :
    List String → Option (List String)
  | [] => none
  | al :: rest => (aliasLookup roots al).map (fun dir => dir :: rest)

/-- Modelled from the spec: a whole request: resolve the URL, then look the
logical path up in the Statement Store; either failure is NotFound. -/
def handleUrl (roots : List (String × String)) (base : List String)
    (s : Store) (url : List String) : Option StatementDefinition :=
  match resolve roots base url with
  | none => none
  | some lp => storeGet s lp

/-- Modelled from the spec: one Statement Store mutation: an explicit put
or remove, or a file-watcher-driven reload with its parse outcome. -/
inductive StoreOp where
  | put (p : List String) (d : StatementDefinition)
  | remove (p : List String)
  | reload (p : List String) (parsed : Except Unit StatementDefinition)

/-- Apply one Statement Store operation. -/
def applyStoreOp (s : Store) : StoreOp → Store
  | .put p d => storePut s p d
  | .remove p => storeRemove s p
  | .reload p parsed => onFileModified s p parsed

/-- Modelled from the spec: sequential execution of a batch body: each
element's statement runs against the state left by the previous one; the
first failure aborts, a full pass sums the affected-row counts. -/
def runBatch {DB P : Type} (exec : DB → P → Option (DB × Nat)) (db : DB) :
    List P → Option (DB × Nat)
  | [] => some (db, 0)
  | p :: ps =>
    match exec db p with
    | none => none
    | some (db', n) =>
      match runBatch exec db' ps with
      | none => none
      | some (db'', m) => some (db'', n + m)

/-- Modelled from the spec: BATCH_INSERT and BATCH_UPDATE execution inside
one transaction: a failing element rolls the whole transaction back to the
starting state and reports zero affected rows and failure; success commits
with the summed count. -/
def execBatch {DB P : Type} (exec : DB → P → Option (DB × Nat)) (db : DB)
    (ps : List P) : DB × Nat × Bool :=
  match runBatch exec db ps with
  | some (db', n) => (db', n, true)
  | none => (db, 0, false)

/-- Modelled from the spec: PAGING_SELECT: the bounded query returns the
window of the matching rows at the given offset and size, the count query
their total number. -/
def pagingSelect {α : Type} (rows : List α) (start limited : Nat) :
    List α × Nat :=
  ((rows.drop start).take limited, rows.length)

lemma hexDigit_ne_colon (n : Nat) : hexDigit n ≠ ':' := by
  unfold hexDigit
  split <;> decide

lemma hexEncode_ne_colon (bs : List Nat) : ∀ c ∈ hexEncode bs, c ≠ ':' := by
  induction bs with
  | nil => intro c hc; cases hc
  | cons b bs ih =>
    intro c hc
    rcases hc with _ | ⟨_, hc⟩
    · exact hexDigit_ne_colon _
    · rcases hc with _ | ⟨_, hc⟩
      · exact hexDigit_ne_colon _
      · exact ih c hc

lemma charIndex_append_colon (m rest : List Char) (hm : ∀ c ∈ m, c ≠ ':') :
    charIndex ':' (m ++ ':' :: rest) = some m.length := by
  induction m with
  | nil => simp [charIndex]
  | cons a as ih =>
    have ha : a ≠ ':' := hm a (List.mem_cons_self a as)
    have ih' := ih (fun c hc => hm c (List.mem_cons_of_mem a hc))
    simp [charIndex, ha, ih']

lemma drop_append_colon (a b : List Char) :
    (a ++ ':' :: b).drop (a.length + 1) = b := by
  induction a with
  | nil => simp
  | cons x xs ih => simp [ih]

lemma hexDigitVal_hexDigit (n : Nat) (h : n < 16) :
    hexDigitVal (hexDigit n) = some n := by
  interval_cases n <;> rfl

lemma hexDecode_hexEncode (bs : List Nat) (h : ∀ b ∈ bs, b < 256) :
    hexDecode (hexEncode bs) = some bs := by
  induction bs with
  | nil => rfl
  | cons b bs ih =>
    have hb : b < 256 := h b (List.mem_cons_self b bs)
    have h1 : b / 16 < 16 := Nat.div_lt_of_lt_mul (by omega)
    have h2 : b % 16 < 16 := Nat.mod_lt _ (by omega)
    simp only [hexEncode, hexDecode, hexDigitVal_hexDigit _ h1,
      hexDigitVal_hexDigit _ h2, ih (fun x hx => h x (List.mem_cons_of_mem b hx))]
    have : 16 * (b / 16) + b % 16 = b := Nat.div_add_mod b 16
    rw [this]

/-- C9: CSRF token round-trip: for every mac primitive, secret and salt byte
string, the generated token splits at its first colon (located right after
the hex-encoded mac), the suffix hex-decodes back to the original salt, and
validateCSRFToken of the generated token returns ok true. -/
theorem csrf_generate_validate_roundtrip
    (mac : List Nat → List Nat → List Nat) (secret salt : List Nat)
    (hsalt : ∀ b ∈ salt, b < 256) :
    charIndex ':' (generateCSRFToken mac secret salt)
        = some (hexEncode (mac secret salt)).length ∧
    (generateCSRFToken mac secret salt).drop
        ((hexEncode (mac secret salt)).length + 1) = hexEncode salt ∧
    validateCSRFToken mac (generateCSRFToken mac secret salt) secret
        = .ok true := by
  have h1 : charIndex ':' (generateCSRFToken mac secret salt)
      = some (hexEncode (mac secret salt)).length :=
    charIndex_append_colon _ _ (hexEncode_ne_colon _)
  have h2 : (generateCSRFToken mac secret salt).drop
      ((hexEncode (mac secret salt)).length + 1) = hexEncode salt :=
    drop_append_colon _ _
  refine ⟨h1, h2, ?_⟩
  unfold validateCSRFToken
  rw [h1]
  simp only [h2, hexDecode_hexEncode salt hsalt]
  simp

/-- Concrete instance of the CSRF round-trip theorem. -/
theorem csrf_generate_validate_roundtrip_witness :
    (∀ b ∈ [171, 5], b < 256) ∧
    validateCSRFToken (fun _ _ => [222, 173])
        (generateCSRFToken (fun _ _ => [222, 173]) [1, 2] [171, 5]) [1, 2]
        = .ok true :=
  ⟨by decide,
   (csrf_generate_validate_roundtrip (fun _ _ => [222, 173]) [1, 2] [171, 5]
     (by decide)).2.2⟩

/-- C10: BasicAuth error dispatch: the next handler runs exactly when the
header passes the length and "Basic"-prefix checks, its remainder decodes,
the credential contains a colon and AuthFunc accepts the split; the same
conditions with AuthFunc rejecting yield 401; a failed header check or a
colon-free credential yields 400. -/
theorem basicAuth_error_dispatch (dec : List Char → Option (List Nat))
    (f : List Nat → List Nat → Bool) (auth : List Char) :
    (BasicAuth dec f auth = .next ↔
      (6 < auth.length ∧ auth.take 5 = basicStr) ∧
      ∃ cred i, dec (auth.drop 6) = some cred ∧ natIndex 58 cred = some i ∧
        f (cred.take i) (cred.drop (i + 1)) = true) ∧
    (BasicAuth dec f auth = .unauthorized ↔
      (6 < auth.length ∧ auth.take 5 = basicStr) ∧
      ∃ cred i, dec (auth.drop 6) = some cred ∧ natIndex 58 cred = some i ∧
        f (cred.take i) (cred.drop (i + 1)) = false) ∧
    (BasicAuth dec f auth = .badRequest ↔
      (¬(6 < auth.length ∧ auth.take 5 = basicStr) ∨
       ∃ cred, dec (auth.drop 6) = some cred ∧ natIndex 58 cred = none)) := by
  unfold BasicAuth
  by_cases h : 6 < auth.length ∧ auth.take 5 = basicStr
  · simp only [if_pos h]
    cases hd : dec (auth.drop 6) with
    | none => simp [h, hd]
    | some cred =>
      cases hi : natIndex 58 cred with
      | none => simp [h, hd, hi]
      | some i =>
        by_cases hf : f (cred.take i) (cred.drop (i + 1)) = true
        · simp [h, hd, hi, hf]
        · simp only [if_neg hf]
          simp [h, hd, hi, Bool.not_eq_true _ ▸ hf]
  · simp [if_neg h, h]

lemma goodShape_mk (rows : List Row) (i : Nat) (cs : List Node) :
    Node.goodShape rows (.mk i cs) = true ↔
      cs.map Node.id = (childrenRows rows i).map Row.id ∧
      ∀ c ∈ cs, Node.goodShape rows c = true := by
  simp [Node.goodShape, List.all_eq_true, List.mem_attach, Subtype.forall]

lemma buildKids_ok (step : Row → Except Unit Node) (P : Node → Prop)
    (hstep : ∀ r t, step r = .ok t → P t ∧ t.id = r.id) :
    ∀ l ts, buildKids step l = .ok ts →
      ts.map Node.id = l.map Row.id ∧ ∀ t ∈ ts, P t := by
  intro l
  induction l with
  | nil =>
    intro ts h
    simp only [buildKids] at h
    cases h
    simp
  | cons r rs ih =>
    intro ts h
    simp only [buildKids] at h
    cases hr : step r with
    | error e => rw [hr] at h; simp at h
    | ok t =>
      cases hrs : buildKids step rs with
      | error e => rw [hr, hrs] at h; simp at h
      | ok ts' =>
        rw [hr, hrs] at h
        simp only [Except.ok.injEq] at h
        subst h
        obtain ⟨hp, hid⟩ := hstep r t hr
        obtain ⟨h1, h2⟩ := ih ts' hrs
        refine ⟨by simp [h1, hid], ?_⟩
        intro u hu
        rcases List.mem_cons.mp hu with rfl | hu'
        · exact hp
        · exact h2 u hu'

lemma buildNode_good (rows : List Row) :
    ∀ fuel r t, buildNode rows fuel r = .ok t →
      Node.goodShape rows t = true ∧ t.id = r.id := by
  intro fuel
  induction fuel with
  | zero => intro r t h; simp [buildNode] at h
  | succ fuel ih =>
    intro r t h
    simp only [buildNode] at h
    cases hk : buildKids (fun c => buildNode rows fuel c) (childrenRows rows r.id) with
    | error e => rw [hk] at h; simp [Except.map] at h
    | ok cs =>
      rw [hk] at h
      simp only [Except.map, Except.ok.injEq] at h
      subst h
      obtain ⟨h1, h2⟩ :=
        buildKids_ok _ (fun t => Node.goodShape rows t = true) ih
          (childrenRows rows r.id) cs hk
      exact ⟨(goodShape_mk rows r.id cs).mpr ⟨h1, h2⟩, rfl⟩

lemma buildKids_error (step : Row → Except Unit Node) :
    ∀ l, buildKids step l = .error () → ∃ r ∈ l, step r = .error () := by
  intro l
  induction l with
  | nil => intro h; simp [buildKids] at h
  | cons r rs ih =>
    intro h
    cases hr : step r with
    | error e => exact ⟨r, List.mem_cons_self r rs, hr⟩
    | ok t =>
      cases hrs : buildKids step rs with
      | error e =>
        obtain ⟨x, hx, hxe⟩ := ih hrs
        exact ⟨x, List.mem_cons_of_mem r hx, hxe⟩
      | ok ts =>
        simp only [buildKids] at h
        rw [hr, hrs] at h
        simp at h

lemma buildNode_error_chain (rows : List Row) :
    ∀ fuel r, r ∈ rows → buildNode rows fuel r = .error () →
      ∃ t : List Row, (r :: t).length = fuel + 1 ∧ (∀ x ∈ r :: t, x ∈ rows) ∧
        List.Chain' (fun a b => b.parent = some a.id) (r :: t) := by
  intro fuel
  induction fuel with
  | zero =>
    intro r hr _
    exact ⟨[], rfl, by simpa using hr, List.chain'_singleton r⟩
  | succ fuel ih =>
    intro r hr h
    simp only [buildNode] at h
    cases hk : buildKids (fun c => buildNode rows fuel c) (childrenRows rows r.id) with
    | ok cs => rw [hk] at h; simp [Except.map] at h
    | error e =>
      obtain ⟨c, hc, hce⟩ := buildKids_error _ _ hk
      have hcf := List.mem_filter.mp hc
      have hcrows : c ∈ rows := hcf.1
      have hlink : c.parent = some r.id := by
        have := hcf.2
        simpa using this
      obtain ⟨t, hlen, hmem, hchain⟩ := ih c hcrows hce
      refine ⟨c :: t, by simpa using hlen, ?_, ?_⟩
      · intro x hx
        rcases List.mem_cons.mp hx with rfl | hx'
        · exact hr
        · exact hmem x hx'
      · exact List.chain'_cons.mpr ⟨hlink, hchain⟩

lemma findRow_eq (rows : List Row) (hnd : (rows.map Row.id).Nodup) :
    ∀ r ∈ rows, findRow rows r.id = some r := by
  induction rows with
  | nil => intro r hr; cases hr
  | cons a as ih =>
    intro r hr
    simp only [List.map_cons, List.nodup_cons] at hnd
    obtain ⟨hna, hnd'⟩ := hnd
    rcases List.mem_cons.mp hr with rfl | hr'
    · simp [findRow, List.find?]
    · have hne : a.id ≠ r.id := by
        intro he
        exact hna (he ▸ List.mem_map_of_mem Row.id hr')
      unfold findRow
      rw [List.find?_cons_of_neg _ (by simp [hne])]
      exact ih hnd' r hr'

lemma chainReaches_of_dup (rows : List Row) (hnd : (rows.map Row.id).Nodup)
    (c : List Row) (hmem : ∀ x ∈ c, x ∈ rows)
    (hchain : List.Chain' (fun a b => b.parent = some a.id) c) :
    ∀ j (hj : j < c.length) i (hij : i < j) fuel, j - i ≤ fuel →
      chainReaches rows ((c.get ⟨i, lt_trans hij hj⟩).id) fuel
        ((c.get ⟨j, hj⟩).id) = true := by
  have hlink : ∀ k (h : k + 1 < c.length),
      (c.get ⟨k + 1, h⟩).parent = some ((c.get ⟨k, by omega⟩).id) := by
    intro k h
    exact List.chain'_iff_get.mp hchain k (by omega)
  intro j
  induction j with
  | zero => intro hj i hij; omega
  | succ k ihk =>
    intro hj i hij fuel hfuel
    obtain ⟨fuel', rfl⟩ : ∃ f, fuel = f + 1 := ⟨fuel - 1, by omega⟩
    have hget : findRow rows ((c.get ⟨k + 1, hj⟩).id) = some (c.get ⟨k + 1, hj⟩) :=
      findRow_eq rows hnd _ (hmem _ (List.get_mem c _ _))
    simp only [chainReaches, hget]
    rw [hlink k hj]
    by_cases hik : i = k
    · subst hik
      simp
    · have hik' : i < k := by omega
      have hrec := ihk (by omega) i hik' fuel' (by omega)
      simp only [Bool.or_eq_true, decide_eq_true_eq]
      exact Or.inr (by simpa using hrec)

lemma cycle_of_long_chain (rows : List Row) (hnd : (rows.map Row.id).Nodup)
    (c : List Row) (hclen : c.length = rows.length + 1)
    (hmem : ∀ x ∈ c, x ∈ rows)
    (hchain : List.Chain' (fun a b => b.parent = some a.id) c) :
    ∃ r ∈ rows, isOwnAncestor rows r = true := by
  have hnn : ¬ c.Nodup := by
    intro hnod
    have hsub : c ⊆ rows := fun x hx => hmem x hx
    have := (hnod.subperm hsub).length_le
    omega
  rw [List.nodup_iff_injective_get] at hnn
  simp only [Function.Injective, not_forall] at hnn
  obtain ⟨a, b, hab, hne⟩ := hnn
  have hvalne : a.val ≠ b.val := fun hv => hne (Fin.ext hv)
  rcases Nat.lt_or_ge a.val b.val with hlt | hge
  · have hred := chainReaches_of_dup rows hnd c hmem hchain b.val b.isLt a.val hlt
      rows.length (by omega)
    refine ⟨c.get b, hmem _ (List.get_mem c _ _), ?_⟩
    unfold isOwnAncestor
    have hid : (c.get ⟨a.val, lt_trans hlt b.isLt⟩).id = (c.get b).id := by
      rw [show c.get ⟨a.val, lt_trans hlt b.isLt⟩ = c.get a from rfl, hab]
    rw [hid] at hred
    exact hred
  · have hlt : b.val < a.val := by omega
    have hred := chainReaches_of_dup rows hnd c hmem hchain a.val a.isLt b.val hlt
      rows.length (by omega)
    refine ⟨c.get a, hmem _ (List.get_mem c _ _), ?_⟩
    unfold isOwnAncestor
    have hid : (c.get ⟨b.val, lt_trans hlt a.isLt⟩).id = (c.get a).id := by
      rw [show c.get ⟨b.val, lt_trans hlt a.isLt⟩ = c.get b from rfl, ← hab]
    rw [hid] at hred
    exact hred

/-- C2: nested-tree assembly always terminates with a definite outcome: on
input whose parent chain contains a cycle the assembler reports CycleError
(in particular on the self-referencing row id 1, parent 1), and on
cycle-free input with distinct ids it always produces a forest. -/
theorem nested_assembly_cycle_detection (rows : List Row)
    (hnd : (rows.map Row.id).Nodup) :
    (rows.any (isOwnAncestor rows) = true → assemble rows = .error ()) ∧
    (rows.any (isOwnAncestor rows) = false → ∃ ts, assemble rows = .ok ts) ∧
    assemble [⟨1, some 1⟩] = .error () := by
  refine ⟨?_, ?_, rfl⟩
  · intro h
    simp [assemble, h]
  · intro h
    rw [assemble, if_neg (by simp [h])]
    cases hb : buildKids (fun r => buildNode rows rows.length r)
        (rows.filter (fun r => decide (r.parent = none))) with
    | ok ts => exact ⟨ts, rfl⟩
    | error e =>
      exfalso
      obtain ⟨r, hrl, hre⟩ := buildKids_error _ _ hb
      have hr : r ∈ rows := (List.mem_filter.mp hrl).1
      obtain ⟨t, hlen, hmem, hchain⟩ :=
        buildNode_error_chain rows rows.length r hr hre
      obtain ⟨x, hx, hcyc⟩ :=
        cycle_of_long_chain rows hnd (r :: t) hlen hmem hchain
      have := List.any_eq_false.mp h x hx
      simp [hcyc] at this

/-- Concrete instance of the cycle-detection theorem on the spec's
self-referencing example row. -/
theorem nested_assembly_cycle_detection_witness :
    (([⟨1, some 1⟩] : List Row).map Row.id).Nodup ∧
    assemble [⟨1, some 1⟩] = .error () :=
  ⟨by decide,
   (nested_assembly_cycle_detection [⟨1, some 1⟩] (by decide)).1 (by decide)⟩

/-- C1: nested-tree assembly: whenever the assembler succeeds, the roots
are exactly the null-parent rows in input order and every node's children
are exactly the rows naming it as parent, in input order; on the spec's
example rows it returns one root (id 1) with children id 2 then id 3. -/
theorem nested_assembly_shape :
    (∀ rows ts, assemble rows = .ok ts →
      ts.map Node.id
          = (rows.filter (fun r => decide (r.parent = none))).map Row.id ∧
      ∀ t ∈ ts, Node.goodShape rows t = true) ∧
    assemble exampleRows = .ok [.mk 1 [.mk 2 [], .mk 3 []]] := by
  constructor
  · intro rows ts h
    rw [assemble] at h
    by_cases hc : rows.any (isOwnAncestor rows) = true
    · rw [if_pos hc] at h
      simp at h
    · rw [if_neg hc] at h
      exact buildKids_ok _ (fun t => Node.goodShape rows t = true)
        (buildNode_good rows rows.length) _ ts h
  · rfl

/-- Concrete instance of the nested-assembly shape theorem on the spec's
example rows. -/
theorem nested_assembly_shape_witness :
    ([Node.mk 1 [.mk 2 [], .mk 3 []]] : List Node).map Node.id
      = (exampleRows.filter (fun r => decide (r.parent = none))).map Row.id :=
  (nested_assembly_shape.1 exampleRows [.mk 1 [.mk 2 [], .mk 3 []]]
    nested_assembly_shape.2).1

lemma storeGet_storePut (s : Store) (p : List String)
    (d : StatementDefinition) : storeGet (storePut s p d) p = some d := by
  simp [storeGet, storePut, List.find?]

lemma stripBase_append (base rest : List String) :
    stripBase base (base ++ rest) = some rest := by
  induction base with
  | nil => rfl
  | cons b bs ih => simp [stripBase, ih]

/-- C4: last-good retention: a reload whose parse fails leaves the
Statement Store unchanged, so get on that logical path still returns the
previously installed definition. -/
theorem reload_parse_error_keeps_last_good (s : Store) (p : List String)
    (e : Unit) :
    onFileModified s p (.error e) = s ∧
    storeGet (onFileModified s p (.error e)) p = storeGet s p := by
  exact ⟨rfl, rfl⟩

/-- C5: router and store round-trip: when the root alias is configured,
resolving the URL built from the base, the alias and the relative path
yields the logical path under which load installed the definition, and get
on it returns exactly that definition. -/
theorem resolve_get_after_load (roots : List (String × String))
    (base : List String) (s : Store) (al : String) (rel : List String)
    (d : StatementDefinition) (dir : String)
    (hal : aliasLookup roots al = some dir) :
    resolve roots base (base ++ al :: rel) = some (al :: rel) ∧
    storeGet (load s al rel (.ok d)) (al :: rel) = some d := by
  constructor
  · simp [resolve, stripBase_append, hal]
  · exact storeGet_storePut s (al :: rel) d

/-- Concrete instance of the router and store round-trip theorem. -/
theorem resolve_get_after_load_witness :
    aliasLookup [("biz", "bizmodel")] "biz" = some "bizmodel" ∧
    resolve [("biz", "bizmodel")] ["bos"] (["bos"] ++ "biz" :: ["plan", "main"])
        = some ("biz" :: ["plan", "main"]) :=
  ⟨by decide,
   (resolve_get_after_load [("biz", "bizmodel")] ["bos"] [] "biz"
     ["plan", "main"] ⟨.ST_SELECT, "select 1"⟩ "bizmodel" (by decide)).1⟩

/-- C7: router resolution and failure condition: on a URL of base, alias
and rest, resolve succeeds exactly when the alias is configured, the whole
lookup is NotFound exactly when the alias is unknown or the Store has no
entry for the logical path, and the README's biz example resolves to the
bizmodel-backed file. -/
theorem router_resolution (roots : List (String × String))
    (base : List String) (s : Store) (al : String) (rest : List String) :
    (resolve roots base (base ++ al :: rest)
        = (aliasLookup roots al).map (fun _ => al :: rest)) ∧
    (handleUrl roots base s (base ++ al :: rest) = none ↔
      aliasLookup roots al = none ∨ storeGet s (al :: rest) = none) ∧
    (resolve [("biz", "bizmodel")] ["bos"] ["bos", "biz", "plan", "main"]
        = some ["biz", "plan", "main"] ∧
     backingFile [("biz", "bizmodel")] ["biz", "plan", "main"]
        = some ["bizmodel", "plan", "main"]) := by
  refine ⟨?_, ?_, by decide⟩
  · cases hal : aliasLookup roots al with
    | none => simp [resolve, stripBase_append, hal]
    | some dir => simp [resolve, stripBase_append, hal]
  · cases hal : aliasLookup roots al with
    | none => simp [handleUrl, resolve, stripBase_append, hal]
    | some dir =>
      cases hg : storeGet s (al :: rest) with
      | none => simp [handleUrl, resolve, stripBase_append, hal, hg]
      | some d => simp [handleUrl, resolve, stripBase_append, hal, hg]

lemma fst_storeRemove_ne (s : Store) (p x : List String)
    (hx : x ∈ (storeRemove s p).map Prod.fst) : x ≠ p := by
  obtain ⟨e, he, rfl⟩ := List.mem_map.mp hx
  have := (List.mem_filter.mp he).2
  simp at this
  exact this

lemma nodup_applyStoreOp (s : Store) (op : StoreOp)
    (h : (s.map Prod.fst).Nodup) : ((applyStoreOp s op).map Prod.fst).Nodup := by
  have hrem : ∀ p : List String, ((storeRemove s p).map Prod.fst).Nodup := by
    intro p
    exact ((List.filter_sublist s).map Prod.fst).nodup h
  have hput : ∀ (p : List String) (d : StatementDefinition),
      ((storePut s p d).map Prod.fst).Nodup := by
    intro p d
    simp only [storePut, List.map_cons]
    exact List.nodup_cons.mpr ⟨fun hc => fst_storeRemove_ne s p p hc rfl, hrem p⟩
  cases op with
  | put p d => exact hput p d
  | remove p => exact hrem p
  | reload p parsed =>
    cases parsed with
    | ok d => exact hput p d
    | error e => exact h

/-- C8: store uniqueness invariant: after any sequence of Statement Store
operations applied from the empty store (initial scan, put, remove,
file-watcher-driven reloads), logical paths in the path-to-definition
mapping are pairwise distinct. -/
theorem store_paths_unique (ops : List StoreOp) :
    ((ops.foldl applyStoreOp []).map Prod.fst).Nodup := by
  suffices h : ∀ s : Store, (s.map Prod.fst).Nodup →
      ((ops.foldl applyStoreOp s).map Prod.fst).Nodup by
    exact h [] (by simp)
  induction ops with
  | nil => intro s hs; exact hs
  | cons op ops ih =>
    intro s hs
    exact ih (applyStoreOp s op) (nodup_applyStoreOp s op hs)

lemma runBatch_append_fail {DB P : Type} (exec : DB → P → Option (DB × Nat))
    (p : P) (ps2 : List P) :
    ∀ (ps1 : List P) (db dbm : DB) (k : Nat),
      runBatch exec db ps1 = some (dbm, k) → exec dbm p = none →
      runBatch exec db (ps1 ++ p :: ps2) = none := by
  intro ps1
  induction ps1 with
  | nil =>
    intro db dbm k h hf
    simp only [runBatch, Option.some.injEq, Prod.mk.injEq] at h
    obtain ⟨rfl, -⟩ := h
    simp [runBatch, hf]
  | cons q qs ih =>
    intro db dbm k h hf
    simp only [runBatch] at h
    cases hq : exec db q with
    | none => simp [hq] at h
    | some r =>
      obtain ⟨db1, n⟩ := r
      simp only [hq] at h
      cases hqs : runBatch exec db1 qs with
      | none => simp [hqs] at h
      | some r2 =>
        obtain ⟨dbm', m⟩ := r2
        simp only [hqs, Option.some.injEq, Prod.mk.injEq] at h
        obtain ⟨rfl, -⟩ := h
        have hrec := ih db1 dbm' m hqs hf
        simp [runBatch, hq, hrec]

/-- C3: batch atomicity: if sequential execution of a BATCH_INSERT or
BATCH_UPDATE body reaches an element that fails, the transaction result is
the unchanged starting state with affected-row count 0 and no success flag;
a failed batch never returns a partial state or count. -/
theorem batch_all_or_nothing {DB P : Type} (exec : DB → P → Option (DB × Nat))
    (db : DB) :
    (∀ (ps1 : List P) (p : P) (ps2 : List P) (dbm : DB) (k : Nat),
      runBatch exec db ps1 = some (dbm, k) → exec dbm p = none →
      execBatch exec db (ps1 ++ p :: ps2) = (db, 0, false)) ∧
    (∀ (ps : List P) (db' : DB) (n : Nat),
      execBatch exec db ps = (db', n, false) → db' = db ∧ n = 0) := by
  constructor
  · intro ps1 p ps2 dbm k h hf
    unfold execBatch
    rw [runBatch_append_fail exec p ps2 ps1 db dbm k h hf]
  · intro ps db' n h
    unfold execBatch at h
    cases hr : runBatch exec db ps with
    | none =>
      rw [hr] at h
      simp only [Prod.mk.injEq] at h
      exact ⟨h.1.symm, h.2.1.symm⟩
    | some r =>
      obtain ⟨db1, m⟩ := r
      rw [hr] at h
      simp at h

/-- Concrete instance of the batch atomicity theorem: the second element
fails, the first element's effect is rolled back. -/
theorem batch_all_or_nothing_witness :
    runBatch (fun (db p : Nat) => if p = 0 then none else some (db + p, 1))
        0 [5] = some (5, 1) ∧
    execBatch (fun (db p : Nat) => if p = 0 then none else some (db + p, 1))
        0 ([5] ++ 0 :: []) = (0, 0, false) :=
  ⟨rfl,
   (batch_all_or_nothing (fun (db p : Nat) =>
       if p = 0 then none else some (db + p, 1)) 0).1
     [5] 0 [] 5 1 rfl rfl⟩

/-- C6: PAGING_SELECT postcondition: over 5 matching rows, start 0 and
limited 2 return exactly 2 rows and a total count of 5, the count query's
result. -/
theorem paging_select_window {α : Type} (rows : List α)
    (h : rows.length = 5) :
    (pagingSelect rows 0 2).1.length = 2 ∧ (pagingSelect rows 0 2).2 = 5 := by
  unfold pagingSelect
  constructor
  · simp [h]
  · exact h

/-- Concrete instance of the paging postcondition theorem. -/
theorem paging_select_window_witness :
    ([10, 11, 12, 13, 14] : List Nat).length = 5 ∧
    (pagingSelect ([10, 11, 12, 13, 14] : List Nat) 0 2).1.length = 2 :=
  ⟨by decide, (paging_select_window [10, 11, 12, 13, 14] (by decide)).1⟩

end Lessgoext
